import Mathlib

/-!
Shallow embedding of the PythonCounterPmf notebook: Counter-based
multisets, probability mass functions, and Bayesian hypothesis suites.

Modelling conventions: numeric weights are rationals; a Python dict is
an association list with unique keys (insertion-ordered); a raised
exception (ZeroDivisionError from normalize) is Option.none.  The
notebook is Python 2 source (print statements), so Counter equality is
the inherited dict equality of stored items.
-/

namespace CounterPmf

attribute [local semireducible] Rat.add Rat.mul Rat.inv Rat.sub

/-- Association-list lookup with a default value, modelling dict lookup
where a missing key yields the default (Counter yields 0). -/
def lookupD {A B : Type} [DecidableEq A] (d : B) : List (A × B) → A → B
  | [], _ => d
  | e :: rest, a => if e.1 = a then e.2 else lookupD d rest a

/-- Association-list store, modelling dict item assignment: the first
entry with the given key is replaced, a missing key is appended. -/
def storeD {A B : Type} [DecidableEq A] : List (A × B) → A → B → List (A × B)
  | [], a, b => [(a, b)]
  | e :: rest, a, b => if e.1 = a then (a, b) :: rest else e :: storeD rest a b

/-- Counter contents: a finite map from keys to rational weights. -/
abbrev FM (K : Type) : Type := List (K × ℚ)

/-- Counter lookup, modelling Counter.getitem: 0 for a missing key. -/
def weight_of {K : Type} [DecidableEq K] (m : FM K) (k : K) : ℚ := lookupD 0 m k

/-- Stored keys of the map, in insertion order. -/
def keysOf {K : Type} (m : FM K) : List K := m.map Prod.fst

/-- In-place increment, modelling the Counter idiom m[k] += v: the
first entry holding k gets v added, a missing key is appended with v. -/
def addW {K : Type} [DecidableEq K] : FM K → K → ℚ → FM K
  | [], k, v => [(k, v)]
  | e :: rest, k, v => if e.1 = k then (e.1, e.2 + v) :: rest else e :: addW rest k v

/-- Building a Counter from an iterable of values: each element
increments its count by 1. -/
def fromSeq {K : Type} [DecidableEq K] (l : List K) : FM K :=
  l.foldl (fun m k => addW m k 1) []

/-- Dict equality (Counter under Python 2 inherits dict equality):
equal iff they store the same keys and agree on every stored value. -/
def dictEqB {K : Type} [DecidableEq K] (c1 c2 : FM K) : Bool :=
  (c1.all fun e => decide (e.1 ∈ keysOf c2) && decide (weight_of c2 e.1 = e.2)) &&
  (c2.all fun e => decide (e.1 ∈ keysOf c1))

/-- is_anagram from the notebook: Counter(word1) == Counter(word2). -/
def is_anagram {K : Type} [DecidableEq K] (word1 word2 : List K) : Bool :=
  dictEqB (fromSeq word1) (fromSeq word2)

/-- Multiset.is_subset: for every stored (value, count) of self,
return False as soon as other[value] < count, else True. -/
def is_subset {K : Type} [DecidableEq K] (s o : FM K) : Bool :=
  s.all fun e => !decide (weight_of o e.1 < e.2)

/-- can_spell from the notebook: Multiset(word) <= Multiset(tiles),
where <= is is_subset. -/
def can_spell (word tiles : List Char) : Bool :=
  is_subset (fromSeq word) (fromSeq tiles)

/-- Sum of the stored weights, modelling sum(self.values()). -/
def totalW {K : Type} (m : FM K) : ℚ := (m.map Prod.snd).sum

/-- The body of Pmf.normalize after the total is computed: each loop
iteration divides one stored weight by the total; the division raises
ZeroDivisionError (none) when the total is zero, and is never reached
when there are no stored keys. -/
def normalizeLoop {K : Type} (t : ℚ) : FM K → Option (FM K)
  | [] => some []
  | e :: rest =>
      if t = 0 then none
      else Option.map (fun r => (e.1, e.2 / t) :: r) (normalizeLoop t rest)

/-- Pmf.normalize: compute the total of the weights, then divide every
stored weight by it in place. -/
def normalize {K : Type} (m : FM K) : Option (FM K) :=
  normalizeLoop (totalW m) m

/-- Pmf.add (combine_sum): into a fresh Pmf, accumulate prob1 * prob2
at key1 + key2 over all pairs of stored entries of the two operands. -/
def combine_sum {K : Type} [DecidableEq K] [Add K] (p q : FM K) : FM K :=
  p.foldl
    (fun acc e1 =>
      q.foldl (fun acc2 e2 => addW acc2 (e1.1 + e2.1) (e1.2 * e2.2)) acc)
    []

/-- Suite.bayesian_update: multiply every stored weight by the
likelihood of the data under that hypothesis, then normalize. -/
def bayesian_update {D K : Type} (lf : D → K → ℚ) (s : FM K) (data : D) :
    Option (FM K) :=
  normalize (s.map fun e => (e.1, e.2 * lf data e.1))

/-- make_die from the notebook: Pmf(range(1, n+1)) then normalize. -/
def make_die (n : ℕ) : FM ℕ :=
  (normalize (fromSeq (List.range' 1 n))).getD []

/-- DiceSuite.likelihood: the probability the hypothesis die assigns to
the observed roll, hypo[data]. -/
def likelihood (data : ℕ) (hypo : FM ℕ) : ℚ := weight_of hypo data

/-- The five dice from the notebook. -/
def dice : List (FM ℕ) := [make_die 4, make_die 6, make_die 8, make_die 12, make_die 20]

/-- DiceSuite(dice): a Counter over the dice, each with prior count 1. -/
def dice_suite : FM (FM ℕ) := fromSeq dice

/-- The suite after observing a roll of 6. -/
def suite1 : FM (FM ℕ) := (bayesian_update likelihood dice_suite 6).getD []

/-- The suite after additionally observing a roll of 8. -/
def suite2 : FM (FM ℕ) := (bayesian_update likelihood suite1 8).getD []

/-- A Pmf object together with its Python identity: id(self) plus its
Counter contents; distinct live objects have distinct ids. -/
structure PmfObj (K : Type) where
  addr : ℕ
  contents : FM K

/-- Pmf.eq as defined in the notebook: self is other, object identity. -/
def pmfEqB {K : Type} (a b : PmfObj K) : Bool := a.addr == b.addr

/-- Pmf.hash as defined in the notebook: id(self). -/
def pmfHash {K : Type} (a : PmfObj K) : ℕ := a.addr

/-- A heap of Counter objects, addressed by object id. -/
def Store (K : Type) : Type := List (ℕ × FM K)

/-- Heap read: the contents of the object at an address. -/
def heapGet {K : Type} (σ : Store K) (a : ℕ) : FM K := lookupD [] σ a

/-- Heap write. -/
def heapSet {K : Type} (σ : Store K) (a : ℕ) (c : FM K) : Store K := storeD σ a c

/-- Pmf.add run against an explicit heap: pmf = Pmf() allocates a fresh
result object at address ra, then the nested loops accumulate each
prob1 * prob2 into the result object; every write targets ra. -/
def combine_sum_heap {K : Type} [DecidableEq K] [Add K] (σ : Store K)
    (pa qa ra : ℕ) : Store K :=
  (heapGet (heapSet σ ra []) pa).foldl
    (fun σ1 e1 =>
      (heapGet σ1 qa).foldl
        (fun σ2 e2 => heapSet σ2 ra (addW (heapGet σ2 ra) (e1.1 + e2.1) (e1.2 * e2.2)))
        σ1)
    (heapSet σ ra [])

/-- The total weight contributed to key k by all pairs of stored
entries of p and q whose keys sum to k. -/
def convWeight {K : Type} [DecidableEq K] [Add K] (p q : FM K) (k : K) : ℚ :=
  (p.map fun e1 => (q.map fun e2 => if e1.1 + e2.1 = k then e1.2 * e2.2 else 0).sum).sum

/-- Weighted sum of a function of the keys over the stored entries. -/
def entrySum {K : Type} (m : FM K) (h : K → ℚ) : ℚ :=
  (m.map fun e => e.2 * h e.1).sum

/-- A concrete two-object heap used as a test input: a coin Pmf at
address 0 and a one-point Pmf at address 1. -/
def storeEx : Store ℕ := [(0, [(1, 1/2), (2, 1/2)]), (1, [(3, 1)])]

/-! ### Association-list lemmas -/

theorem lookupD_storeD {A B : Type} [DecidableEq A] (d : B) (m : List (A × B))
    (a a' : A) (b : B) :
    lookupD d (storeD m a b) a' = if a = a' then b else lookupD d m a' := by
  induction m with
  | nil => simp [storeD, lookupD]
  | cons e rest ih =>
      simp only [storeD]
      by_cases h : e.1 = a
      · rw [if_pos h]
        by_cases h2 : a = a'
        · simp [lookupD, h2]
        · have h3 : ¬ e.1 = a' := fun hc => h2 (h.symm.trans hc)
          simp [lookupD, h2, h3]
      · rw [if_neg h]
        by_cases h2 : e.1 = a'
        · have h3 : ¬ a = a' := fun hc => h (h2.trans hc.symm)
          simp [lookupD, h2, h3]
        · simp [lookupD, h2, ih]

theorem weight_of_addW {K : Type} [DecidableEq K] (m : FM K) (k k' : K) (v : ℚ) :
    weight_of (addW m k v) k' =
      if k = k' then weight_of m k' + v else weight_of m k' := by
  induction m with
  | nil => by_cases h : k = k' <;> simp [addW, weight_of, lookupD, h]
  | cons e rest ih =>
      simp only [addW]
      by_cases h : e.1 = k
      · rw [if_pos h]
        by_cases h2 : k = k'
        · simp [weight_of, lookupD, h.trans h2, h2]
        · have h3 : ¬ e.1 = k' := fun hc => h2 (h.symm.trans hc)
          simp [weight_of, lookupD, h2, h3]
      · rw [if_neg h]
        by_cases h2 : e.1 = k'
        · have h3 : ¬ k = k' := fun hc => h (h2.trans hc.symm)
          simp [weight_of, lookupD, h2, h3]
        · simp only [weight_of, lookupD, if_neg h2]
          exact ih

theorem keysOf_addW {K : Type} [DecidableEq K] (m : FM K) (k : K) (v : ℚ) :
    keysOf (addW m k v) =
      if k ∈ keysOf m then keysOf m else keysOf m ++ [k] := by
  induction m with
  | nil => simp [addW, keysOf]
  | cons e rest ih =>
      by_cases h : e.1 = k
      · simp [addW, keysOf, h]
      · have hne : ¬ k = e.1 := fun hc => h hc.symm
        by_cases h2 : k ∈ keysOf rest <;>
          simp_all [addW, keysOf, hne]

theorem mem_keysOf_addW {K : Type} [DecidableEq K] (m : FM K) (k k' : K) (v : ℚ) :
    k' ∈ keysOf (addW m k v) ↔ k' ∈ keysOf m ∨ k' = k := by
  rw [keysOf_addW]
  split
  · next h =>
      constructor
      · exact fun hm => Or.inl hm
      · rintro (hm | rfl)
        · exact hm
        · exact h
  · simp

theorem nodup_keysOf_addW {K : Type} [DecidableEq K] (m : FM K) (k : K) (v : ℚ)
    (h : (keysOf m).Nodup) : (keysOf (addW m k v)).Nodup := by
  rw [keysOf_addW]
  split
  · exact h
  · next hk => simp [List.nodup_append, h, hk]

theorem weight_of_nil {K : Type} [DecidableEq K] (k : K) :
    weight_of ([] : FM K) k = 0 := rfl

theorem weight_of_eq_zero_of_not_mem {K : Type} [DecidableEq K] {m : FM K} {k : K}
    (h : k ∉ keysOf m) : weight_of m k = 0 := by
  induction m with
  | nil => rfl
  | cons e rest ih =>
      simp only [keysOf, List.map_cons, List.mem_cons] at h
      push_neg at h
      have h1 : ¬ e.1 = k := fun hc => h.1 hc.symm
      simpa [weight_of, lookupD, h1] using ih (by simpa [keysOf] using h.2)

theorem weight_of_mem {K : Type} [DecidableEq K] {m : FM K} {e : K × ℚ}
    (hnd : (keysOf m).Nodup) (he : e ∈ m) : weight_of m e.1 = e.2 := by
  induction m with
  | nil => cases he
  | cons f rest ih =>
      simp only [keysOf, List.map_cons, List.nodup_cons] at hnd
      rcases List.mem_cons.mp he with rfl | hmem
      · simp [weight_of, lookupD]
      · have hne : ¬ f.1 = e.1 := by
          intro hc
          exact hnd.1 (hc ▸ (List.mem_map.mpr ⟨e, hmem, rfl⟩))
        simpa [weight_of, lookupD, hne] using ih hnd.2 hmem

theorem exists_mem_of_mem_keysOf {K : Type} {m : FM K} {k : K}
    (h : k ∈ keysOf m) : ∃ v, (k, v) ∈ m := by
  rcases List.mem_map.mp h with ⟨e, he, rfl⟩
  exact ⟨e.2, he⟩

/-! ### fromSeq lemmas -/

theorem weight_of_foldl_addW_one {K : Type} [DecidableEq K] (l : List K) :
    ∀ (m : FM K) (k : K),
      weight_of (l.foldl (fun m x => addW m x 1) m) k =
        weight_of m k + l.count k := by
  induction l with
  | nil => intro m k; simp
  | cons x rest ih =>
      intro m k
      by_cases h : x = k
      · simp [List.foldl_cons, ih, weight_of_addW, h, List.count_cons]
        ring
      · simp [List.foldl_cons, ih, weight_of_addW, h, List.count_cons]

theorem weight_of_fromSeq {K : Type} [DecidableEq K] (l : List K) (k : K) :
    weight_of (fromSeq l) k = l.count k := by
  simpa [fromSeq, weight_of, lookupD] using weight_of_foldl_addW_one l [] k

theorem mem_keysOf_foldl_addW_one {K : Type} [DecidableEq K] (l : List K) :
    ∀ (m : FM K) (k : K),
      k ∈ keysOf (l.foldl (fun m x => addW m x 1) m) ↔ k ∈ keysOf m ∨ k ∈ l := by
  induction l with
  | nil => intro m k; simp
  | cons x rest ih =>
      intro m k
      rw [List.foldl_cons, ih, mem_keysOf_addW]
      simp only [List.mem_cons]
      tauto

theorem mem_keysOf_fromSeq {K : Type} [DecidableEq K] (l : List K) (k : K) :
    k ∈ keysOf (fromSeq l) ↔ k ∈ l := by
  simpa [fromSeq, keysOf] using mem_keysOf_foldl_addW_one l [] k

theorem nodup_keysOf_foldl_addW_one {K : Type} [DecidableEq K] (l : List K) :
    ∀ (m : FM K), (keysOf m).Nodup →
      (keysOf (l.foldl (fun m x => addW m x 1) m)).Nodup := by
  induction l with
  | nil => intro m hm; simpa
  | cons x rest ih =>
      intro m hm
      exact ih _ (nodup_keysOf_addW m x 1 hm)

theorem nodup_keysOf_fromSeq {K : Type} [DecidableEq K] (l : List K) :
    (keysOf (fromSeq l)).Nodup := by
  exact nodup_keysOf_foldl_addW_one l [] (by simp [keysOf])

theorem mem_fromSeq_eq_count {K : Type} [DecidableEq K] {l : List K} {e : K × ℚ}
    (he : e ∈ fromSeq l) : e.2 = l.count e.1 := by
  have h := weight_of_mem (nodup_keysOf_fromSeq l) he
  rw [weight_of_fromSeq] at h
  exact h.symm

/-! ### normalize lemmas -/

theorem totalW_nil {K : Type} : totalW ([] : FM K) = 0 := rfl

theorem normalizeLoop_eq_none_iff {K : Type} (t : ℚ) (m : FM K) :
    normalizeLoop t m = none ↔ t = 0 ∧ m ≠ [] := by
  induction m with
  | nil => simp [normalizeLoop]
  | cons e rest ih =>
      by_cases h : t = 0 <;> simp [normalizeLoop, h, Option.map_eq_none', ih]

theorem normalizeLoop_eq_some {K : Type} {t : ℚ} (h : t ≠ 0) (m : FM K) :
    normalizeLoop t m = some (m.map fun e => (e.1, e.2 / t)) := by
  induction m with
  | nil => simp [normalizeLoop]
  | cons e rest ih => simp [normalizeLoop, h, ih]

theorem totalW_map_div {K : Type} (m : FM K) (t : ℚ) :
    totalW (m.map fun e => (e.1, e.2 / t)) = totalW m / t := by
  induction m with
  | nil => simp [totalW]
  | cons e rest ih => simp [totalW, add_div] at ih ⊢; simp [ih]

theorem normalize_eq_some {K : Type} {m : FM K} (h : totalW m ≠ 0) :
    normalize m = some (m.map fun e => (e.1, e.2 / totalW m)) :=
  normalizeLoop_eq_some h m

theorem normalize_eq_none_iff {K : Type} (m : FM K) :
    normalize m = none ↔ totalW m = 0 ∧ m ≠ [] :=
  normalizeLoop_eq_none_iff (totalW m) m

/-! ### entrySum lemmas and the convolution formula -/

theorem entrySum_nil {K : Type} (h : K → ℚ) : entrySum ([] : FM K) h = 0 := rfl

theorem entrySum_cons {K : Type} (e : K × ℚ) (m : FM K) (h : K → ℚ) :
    entrySum (e :: m) h = e.2 * h e.1 + entrySum m h := by
  simp [entrySum]

theorem entrySum_congr {K : Type} (m : FM K) {h1 h2 : K → ℚ}
    (hh : ∀ s, h1 s = h2 s) : entrySum m h1 = entrySum m h2 := by
  unfold entrySum
  exact congrArg List.sum (List.map_congr_left fun e _ => by rw [hh])

theorem entrySum_zero_fun {K : Type} (m : FM K) : entrySum m (fun _ => 0) = 0 := by
  induction m with
  | nil => rfl
  | cons e rest ih => simp [entrySum_cons, ih]

theorem entrySum_add_fun {K : Type} (m : FM K) (f g : K → ℚ) :
    entrySum m (fun s => f s + g s) = entrySum m f + entrySum m g := by
  induction m with
  | nil => simp [entrySum_nil]
  | cons e rest ih => simp [entrySum_cons, ih]; ring

theorem entrySum_mul_fun {K : Type} (m : FM K) (c : ℚ) (f : K → ℚ) :
    entrySum m (fun s => c * f s) = c * entrySum m f := by
  induction m with
  | nil => simp [entrySum_nil]
  | cons e rest ih => simp [entrySum_cons, ih]; ring

theorem entrySum_addW {K : Type} [DecidableEq K] (m : FM K) (k : K) (v : ℚ)
    (h : K → ℚ) : entrySum (addW m k v) h = entrySum m h + v * h k := by
  induction m with
  | nil => simp [addW, entrySum_cons, entrySum_nil]
  | cons e rest ih =>
      simp only [addW]
      by_cases he : e.1 = k
      · subst he
        simp [entrySum_cons]
        ring
      · simp [he, entrySum_cons, ih]
        ring

theorem entrySum_swap {K : Type} (p q : FM K) (F : K → K → ℚ) :
    entrySum p (fun a => entrySum q (fun b => F a b)) =
      entrySum q (fun b => entrySum p (fun a => F a b)) := by
  induction p with
  | nil =>
      have hz : entrySum q (fun b => entrySum ([] : FM K) fun a => F a b) =
          entrySum q (fun _ => 0) :=
        entrySum_congr q (fun b => entrySum_nil _)
      rw [entrySum_nil, hz, entrySum_zero_fun]
  | cons e rest ih =>
      have hc : entrySum q (fun b => entrySum (e :: rest) fun a => F a b) =
          entrySum q (fun b => e.2 * F e.1 b + entrySum rest fun a => F a b) :=
        entrySum_congr q (fun b => entrySum_cons e rest _)
      have ha : entrySum q (fun b => e.2 * F e.1 b + entrySum rest fun a => F a b) =
          entrySum q (fun b => e.2 * F e.1 b) +
            entrySum q (fun b => entrySum rest fun a => F a b) :=
        entrySum_add_fun q _ _
      have hm : entrySum q (fun b => e.2 * F e.1 b) =
          e.2 * entrySum q (fun b => F e.1 b) :=
        entrySum_mul_fun q e.2 _
      rw [entrySum_cons, hc, ha, hm, ih]

theorem entrySum_inner_fold {K : Type} [DecidableEq K] [Add K] (e1 : K × ℚ)
    (q : FM K) (h : K → ℚ) :
    ∀ acc : FM K,
      entrySum
        (q.foldl (fun acc2 e2 => addW acc2 (e1.1 + e2.1) (e1.2 * e2.2)) acc) h =
      entrySum acc h + e1.2 * entrySum q (fun k2 => h (e1.1 + k2)) := by
  induction q with
  | nil => intro acc; simp [entrySum_nil]
  | cons e2 rest ih =>
      intro acc
      rw [List.foldl_cons, ih, entrySum_addW, entrySum_cons]
      ring

theorem entrySum_combine_sum {K : Type} [DecidableEq K] [Add K] (p q : FM K)
    (h : K → ℚ) :
    entrySum (combine_sum p q) h =
      entrySum p (fun k1 => entrySum q (fun k2 => h (k1 + k2))) := by
  suffices hgen : ∀ acc : FM K,
      entrySum
        (p.foldl
          (fun acc e1 =>
            q.foldl (fun acc2 e2 => addW acc2 (e1.1 + e2.1) (e1.2 * e2.2)) acc)
          acc) h =
      entrySum acc h + entrySum p (fun k1 => entrySum q (fun k2 => h (k1 + k2))) by
    simpa [combine_sum, entrySum_nil] using hgen []
  induction p with
  | nil => intro acc; simp [entrySum_nil]
  | cons e1 rest ih =>
      intro acc
      rw [List.foldl_cons, ih, entrySum_inner_fold, entrySum_cons]
      ring

theorem nodup_keysOf_inner_fold {K : Type} [DecidableEq K] [Add K] (e1 : K × ℚ)
    (q : FM K) :
    ∀ acc : FM K, (keysOf acc).Nodup →
      (keysOf
        (q.foldl (fun acc2 e2 => addW acc2 (e1.1 + e2.1) (e1.2 * e2.2)) acc)).Nodup := by
  induction q with
  | nil => intro acc hacc; simpa
  | cons e2 rest ih =>
      intro acc hacc
      exact ih _ (nodup_keysOf_addW _ _ _ hacc)

theorem nodup_keysOf_combine_sum {K : Type} [DecidableEq K] [Add K] (p q : FM K) :
    (keysOf (combine_sum p q)).Nodup := by
  suffices hgen : ∀ acc : FM K, (keysOf acc).Nodup →
      (keysOf
        (p.foldl
          (fun acc e1 =>
            q.foldl (fun acc2 e2 => addW acc2 (e1.1 + e2.1) (e1.2 * e2.2)) acc)
          acc)).Nodup by
    exact hgen [] (by simp [keysOf])
  induction p with
  | nil => intro acc hacc; simpa
  | cons e1 rest ih =>
      intro acc hacc
      exact ih _ (nodup_keysOf_inner_fold e1 q acc hacc)

theorem entrySum_indicator_of_not_mem {K : Type} [DecidableEq K] {m : FM K}
    {k : K} (h : k ∉ keysOf m) :
    entrySum m (fun s => if s = k then 1 else 0) = 0 := by
  induction m with
  | nil => rfl
  | cons e rest ih =>
      simp only [keysOf, List.map_cons, List.mem_cons] at h
      push_neg at h
      have h1 : ¬ e.1 = k := fun hc => h.1 hc.symm
      rw [entrySum_cons, ih (by simpa [keysOf] using h.2)]
      simp [h1]

theorem weight_of_eq_entrySum_indicator {K : Type} [DecidableEq K] {m : FM K}
    (hnd : (keysOf m).Nodup) (k : K) :
    weight_of m k = entrySum m (fun s => if s = k then 1 else 0) := by
  induction m with
  | nil => rfl
  | cons e rest ih =>
      simp only [keysOf, List.map_cons, List.nodup_cons] at hnd
      rw [entrySum_cons]
      by_cases he : e.1 = k
      · have hk : k ∉ keysOf rest := he ▸ (by simpa [keysOf] using hnd.1)
        rw [entrySum_indicator_of_not_mem hk]
        simp [weight_of, lookupD, he]
      · simp only [weight_of, lookupD, if_neg he, if_neg he, mul_zero, zero_add]
        exact ih hnd.2

theorem weight_of_combine_sum_eq_conv {K : Type} [DecidableEq K] [Add K]
    (p q : FM K) (k : K) :
    weight_of (combine_sum p q) k = convWeight p q k := by
  rw [weight_of_eq_entrySum_indicator (nodup_keysOf_combine_sum p q) k,
    entrySum_combine_sum]
  unfold entrySum convWeight
  refine congrArg List.sum (List.map_congr_left fun e1 _ => ?_)
  rw [← List.sum_map_mul_left]
  refine congrArg List.sum (List.map_congr_left fun e2 _ => ?_)
  by_cases hc : e1.1 + e2.1 = k <;> simp [hc]

/-! ### heap lemmas for the frame property of combine_sum -/

theorem heapGet_heapSet {K : Type} (σ : Store K) (a a' : ℕ) (c : FM K) :
    heapGet (heapSet σ a c) a' = if a = a' then c else heapGet σ a' :=
  lookupD_storeD [] σ a a' c

theorem heap_inner_fold {K : Type} [DecidableEq K] [Add K] (e1 : K × ℚ)
    (q : FM K) (ra : ℕ) :
    ∀ σ : Store K,
      (∀ x, x ≠ ra →
        heapGet
          (q.foldl
            (fun σ2 e2 =>
              heapSet σ2 ra (addW (heapGet σ2 ra) (e1.1 + e2.1) (e1.2 * e2.2)))
            σ) x = heapGet σ x) ∧
      heapGet
          (q.foldl
            (fun σ2 e2 =>
              heapSet σ2 ra (addW (heapGet σ2 ra) (e1.1 + e2.1) (e1.2 * e2.2)))
            σ) ra =
        q.foldl (fun acc e2 => addW acc (e1.1 + e2.1) (e1.2 * e2.2)) (heapGet σ ra) := by
  induction q with
  | nil => intro σ; exact ⟨fun x _ => rfl, rfl⟩
  | cons e2 rest ih =>
      intro σ
      rw [List.foldl_cons, List.foldl_cons]
      set σ1 := heapSet σ ra (addW (heapGet σ ra) (e1.1 + e2.1) (e1.2 * e2.2)) with hσ1
      refine ⟨fun x hx => ?_, ?_⟩
      · rw [(ih σ1).1 x hx, hσ1, heapGet_heapSet, if_neg (fun hc => hx hc.symm)]
      · rw [(ih σ1).2, hσ1, heapGet_heapSet, if_pos rfl]

theorem heap_outer_fold {K : Type} [DecidableEq K] [Add K] (p : FM K)
    (qa ra : ℕ) (hq : qa ≠ ra) :
    ∀ σ : Store K,
      (∀ x, x ≠ ra →
        heapGet
          (p.foldl
            (fun σ1 e1 =>
              (heapGet σ1 qa).foldl
                (fun σ2 e2 =>
                  heapSet σ2 ra (addW (heapGet σ2 ra) (e1.1 + e2.1) (e1.2 * e2.2)))
                σ1)
            σ) x = heapGet σ x) ∧
      heapGet
          (p.foldl
            (fun σ1 e1 =>
              (heapGet σ1 qa).foldl
                (fun σ2 e2 =>
                  heapSet σ2 ra (addW (heapGet σ2 ra) (e1.1 + e2.1) (e1.2 * e2.2)))
                σ1)
            σ) ra =
        p.foldl
          (fun acc e1 =>
            (heapGet σ qa).foldl (fun acc2 e2 => addW acc2 (e1.1 + e2.1) (e1.2 * e2.2)) acc)
          (heapGet σ ra) := by
  induction p with
  | nil => intro σ; exact ⟨fun x _ => rfl, rfl⟩
  | cons e1 rest ih =>
      intro σ
      rw [List.foldl_cons, List.foldl_cons]
      set σ1 :=
        (heapGet σ qa).foldl
          (fun σ2 e2 =>
            heapSet σ2 ra (addW (heapGet σ2 ra) (e1.1 + e2.1) (e1.2 * e2.2)))
          σ with hσ1
      have hframe := (heap_inner_fold e1 (heapGet σ qa) ra σ).1
      have hcontent := (heap_inner_fold e1 (heapGet σ qa) ra σ).2
      have hqa : heapGet σ1 qa = heapGet σ qa := hframe qa hq
      refine ⟨fun x hx => ?_, ?_⟩
      · rw [(ih σ1).1 x hx, hframe x hx]
      · rw [(ih σ1).2, hqa, hcontent]

/-! ### Multiset and dict-equality lemmas -/

theorem weight_of_nonneg {K : Type} [DecidableEq K] {o : FM K}
    (h : ∀ e ∈ o, (0 : ℚ) ≤ e.2) (k : K) : 0 ≤ weight_of o k := by
  induction o with
  | nil => simp [weight_of, lookupD]
  | cons e rest ih =>
      by_cases he : e.1 = k
      · simpa [weight_of, lookupD, he] using h e (List.mem_cons_self e rest)
      · simpa [weight_of, lookupD, he] using
          ih (fun f hf => h f (List.mem_cons_of_mem _ hf))

theorem is_subset_iff {K : Type} [DecidableEq K] (s o : FM K)
    (ho : ∀ e ∈ o, (0 : ℚ) ≤ e.2) :
    is_subset s o = true ↔ ∀ e ∈ s, 0 < e.2 → e.2 ≤ weight_of o e.1 := by
  unfold is_subset
  rw [List.all_eq_true]
  constructor
  · intro hall e he _
    have h1 := hall e he
    simp only [Bool.not_eq_true', decide_eq_false_iff_not, not_lt] at h1
    exact h1
  · intro hcl e he
    simp only [Bool.not_eq_true', decide_eq_false_iff_not, not_lt]
    by_cases hpos : 0 < e.2
    · exact hcl e he hpos
    · exact le_trans (le_of_not_lt hpos) (weight_of_nonneg ho e.1)

theorem dictEqB_iff {K : Type} [DecidableEq K] (c1 c2 : FM K)
    (h1 : (keysOf c1).Nodup) (_h2 : (keysOf c2).Nodup) :
    dictEqB c1 c2 = true ↔
      ((∀ k, k ∈ keysOf c1 ↔ k ∈ keysOf c2) ∧
       ∀ k, weight_of c1 k = weight_of c2 k) := by
  unfold dictEqB
  rw [Bool.and_eq_true, List.all_eq_true, List.all_eq_true]
  constructor
  · rintro ⟨ha, hb⟩
    have hmem : ∀ k, k ∈ keysOf c1 ↔ k ∈ keysOf c2 := by
      intro k
      constructor
      · intro hk
        rcases exists_mem_of_mem_keysOf hk with ⟨v, hv⟩
        have hav := ha (k, v) hv
        simp only [Bool.and_eq_true, decide_eq_true_eq] at hav
        exact hav.1
      · intro hk
        rcases exists_mem_of_mem_keysOf hk with ⟨v, hv⟩
        simpa using hb (k, v) hv
    refine ⟨hmem, fun k => ?_⟩
    by_cases hk : k ∈ keysOf c1
    · rcases exists_mem_of_mem_keysOf hk with ⟨v, hv⟩
      have hv1 : weight_of c1 k = v := weight_of_mem h1 hv
      have hav := ha (k, v) hv
      simp only [Bool.and_eq_true, decide_eq_true_eq] at hav
      rw [hv1, hav.2]
    · rw [weight_of_eq_zero_of_not_mem hk,
        weight_of_eq_zero_of_not_mem (fun hc => hk ((hmem k).mpr hc))]
  · rintro ⟨hmem, hw⟩
    constructor
    · intro e he
      have hk2 : e.1 ∈ keysOf c2 :=
        (hmem e.1).mp (List.mem_map.mpr ⟨e, he, rfl⟩)
      have hval : weight_of c2 e.1 = e.2 := by
        rw [← hw e.1]
        exact weight_of_mem h1 he
      simp [hk2, hval]
    · intro e he
      have hk1 : e.1 ∈ keysOf c1 :=
        (hmem e.1).mpr (List.mem_map.mpr ⟨e, he, rfl⟩)
      simpa using hk1

theorem is_anagram_iff_counts {K : Type} [DecidableEq K] (a b : List K) :
    is_anagram a b = true ↔ ∀ x, a.count x = b.count x := by
  unfold is_anagram
  rw [dictEqB_iff _ _ (nodup_keysOf_fromSeq a) (nodup_keysOf_fromSeq b)]
  constructor
  · rintro ⟨_, hw⟩ x
    have hx := hw x
    rw [weight_of_fromSeq, weight_of_fromSeq] at hx
    exact_mod_cast hx
  · intro hc
    constructor
    · intro k
      rw [mem_keysOf_fromSeq, mem_keysOf_fromSeq]
      constructor
      · intro hk
        have hpos : 0 < b.count k := hc k ▸ List.count_pos_iff.mpr hk
        exact List.count_pos_iff.mp hpos
      · intro hk
        have hpos : 0 < a.count k := (hc k).symm ▸ List.count_pos_iff.mpr hk
        exact List.count_pos_iff.mp hpos
    · intro k
      rw [weight_of_fromSeq, weight_of_fromSeq]
      exact_mod_cast hc k

/-! ### Claim theorems -/

/-- C1: for the uniform prior over the five dice with likelihood
hypo[data], bayesian_update multiplies every weight by its likelihood
and divides by the total of all updated weights (the seventh conjunct
states the posterior of d6 as prior times likelihood over that global
total), yielding after data = 6 the posteriors 0, 20/51, 15/51, 10/51,
6/51 and after a further data = 8 the posteriors 0, 0, 225/361 (about
0.6233), 100/361 (about 0.2770), 36/361 (about 0.0997). -/
theorem dice_suite_posterior :
    bayesian_update likelihood dice_suite 6 = some suite1 ∧
    weight_of suite1 (make_die 4) = 0 ∧
    weight_of suite1 (make_die 6) = 20 / 51 ∧
    weight_of suite1 (make_die 8) = 15 / 51 ∧
    weight_of suite1 (make_die 12) = 10 / 51 ∧
    weight_of suite1 (make_die 20) = 6 / 51 ∧
    weight_of suite1 (make_die 6) =
      1 * likelihood 6 (make_die 6) /
        totalW (dice_suite.map fun e => (e.1, e.2 * likelihood 6 e.1)) ∧
    bayesian_update likelihood suite1 8 = some suite2 ∧
    weight_of suite2 (make_die 4) = 0 ∧
    weight_of suite2 (make_die 6) = 0 ∧
    weight_of suite2 (make_die 8) = 225 / 361 ∧
    weight_of suite2 (make_die 12) = 100 / 361 ∧
    weight_of suite2 (make_die 20) = 36 / 361 ∧
    6232 / 10000 < weight_of suite2 (make_die 8) ∧
    weight_of suite2 (make_die 8) < 6234 / 10000 ∧
    2769 / 10000 < weight_of suite2 (make_die 12) ∧
    weight_of suite2 (make_die 12) < 2771 / 10000 ∧
    996 / 10000 < weight_of suite2 (make_die 20) ∧
    weight_of suite2 (make_die 20) < 998 / 10000 := by
  refine ⟨?_, ?_, ?_, ?_, ?_, ?_, ?_, ?_, ?_, ?_, ?_, ?_, ?_, ?_, ?_, ?_, ?_, ?_, ?_⟩ <;>
    decide

/-- C2: when every hypothesis in a non-empty suite has likelihood 0 for
the observed data, the post-update total is 0 and the final normalize
raises the division-by-zero error (modelled as none); the update never
returns normally. -/
theorem bayesian_update_all_zero_like_none {D K : Type} (lf : D → K → ℚ)
    (s : FM K) (data : D) (hne : s ≠ [])
    (hz : ∀ k ∈ keysOf s, lf data k = 0) :
    bayesian_update lf s data = none := by
  have htot : totalW (s.map fun e => (e.1, e.2 * lf data e.1)) = 0 := by
    unfold totalW
    rw [List.map_map]
    apply List.sum_eq_zero
    intro x hx
    rcases List.mem_map.mp hx with ⟨e, he, rfl⟩
    have hk : e.1 ∈ keysOf s := List.mem_map.mpr ⟨e, he, rfl⟩
    simp [hz e.1 hk]
  have hmapne : (s.map fun e => (e.1, e.2 * lf data e.1)) ≠ [] := by
    intro hc
    exact hne (List.map_eq_nil_iff.mp hc)
  unfold bayesian_update normalize
  rw [htot]
  exact (normalizeLoop_eq_none_iff 0 _).mpr ⟨rfl, hmapne⟩

/-- C2 witness: a concrete one-hypothesis suite with an identically-zero
likelihood function fails with the degenerate-distribution error. -/
theorem bayesian_update_all_zero_like_none_w :
    bayesian_update (fun (_ : ℕ) (_ : ℕ) => (0 : ℚ)) [((0 : ℕ), (1 : ℚ))] 0 = none :=
  bayesian_update_all_zero_like_none _ _ _ (by decide) (fun _ _ => rfl)

/-- C3 counterexample: the empty Pmf has total weight 0, yet normalize
returns normally (the division loop body never runs), so normalize does
not raise exactly when the total is 0. -/
theorem normalize_empty_cex :
    totalW ([] : FM ℕ) = 0 ∧ normalize ([] : FM ℕ) = some [] :=
  ⟨rfl, rfl⟩

/-- C3 amended: normalize raises the degenerate-distribution error
exactly when the total of the weights is 0 AND the Pmf is non-empty
(the empty Pmf returns unchanged); otherwise it divides every stored
weight by the total in place, after which the weights sum to 1. -/
theorem normalize_total_spec {K : Type} (m : FM K) :
    (normalize m = none ↔ totalW m = 0 ∧ m ≠ []) ∧
    (totalW m ≠ 0 →
      normalize m = some (m.map fun e => (e.1, e.2 / totalW m)) ∧
      totalW (m.map fun e => (e.1, e.2 / totalW m)) = 1) := by
  refine ⟨normalize_eq_none_iff m, fun h => ⟨normalize_eq_some h, ?_⟩⟩
  rw [totalW_map_div, div_self h]

/-- C3 witness: a concrete nonzero-total Pmf is divided through by its
total. -/
theorem normalize_total_spec_w :
    totalW [((0 : ℕ), (2 : ℚ))] ≠ 0 ∧
    normalize [((0 : ℕ), (2 : ℚ))] =
      some ([((0 : ℕ), (2 : ℚ))].map fun e => (e.1, e.2 / totalW [((0 : ℕ), (2 : ℚ))])) :=
  ⟨by decide, ((normalize_total_spec [((0 : ℕ), (2 : ℚ))]).2 (by decide)).1⟩

/-- C6: normalize is idempotent on Pmfs with nonzero total: the result
of one normalize is a fixed point of normalize (exactly, since the
weights are modelled as exact rationals). -/
theorem normalize_idem {K : Type} (m m' : FM K) (h : totalW m ≠ 0)
    (hm : normalize m = some m') : normalize m' = some m' := by
  rw [normalize_eq_some h] at hm
  injection hm with hm
  subst hm
  have h1 : totalW (m.map fun e => (e.1, e.2 / totalW m)) = 1 := by
    rw [totalW_map_div, div_self h]
  rw [normalize_eq_some (by rw [h1]; exact one_ne_zero), h1]
  simp

/-- C6 witness: normalizing an already-normalized concrete Pmf leaves
it unchanged. -/
theorem normalize_idem_w : normalize [((0 : ℕ), (1 : ℚ))] = some [((0 : ℕ), (1 : ℚ))] :=
  normalize_idem [((0 : ℕ), (2 : ℚ))] [((0 : ℕ), (1 : ℚ))] (by decide) (by decide)

/-- C4: combine_sum assigns to each key k the sum of prob1 * prob2 over
all pairs of entries whose keys sum to k; for two normalized d6 Pmfs
the support is exactly 2..12 with P(7) = 6/36, P(2) = P(12) = 1/36 and
total exactly 1. -/
theorem combine_sum_spec :
    (∀ (K : Type) [DecidableEq K] [Add K] (p q : FM K) (k : K),
        weight_of (combine_sum p q) k = convWeight p q k) ∧
    keysOf (combine_sum (make_die 6) (make_die 6)) =
      [2, 3, 4, 5, 6, 7, 8, 9, 10, 11, 12] ∧
    weight_of (combine_sum (make_die 6) (make_die 6)) 7 = 6 / 36 ∧
    weight_of (combine_sum (make_die 6) (make_die 6)) 2 = 1 / 36 ∧
    weight_of (combine_sum (make_die 6) (make_die 6)) 12 = 1 / 36 ∧
    totalW (combine_sum (make_die 6) (make_die 6)) = 1 := by
  refine ⟨?_, ?_, ?_, ?_, ?_, ?_⟩
  · intro K instK instA p q k
    exact weight_of_combine_sum_eq_conv p q k
  all_goals decide

/-- C5: combine_sum is associative and commutative as an operation on
distributions (pointwise on every key, exactly in rational arithmetic);
three d6 dice combined under the two groupings give literally identical
results with support exactly 3..18. -/
theorem combine_sum_assoc_comm :
    (∀ (K : Type) [DecidableEq K] [AddCommSemigroup K] (p q r : FM K) (k : K),
        weight_of (combine_sum (combine_sum p q) r) k =
          weight_of (combine_sum p (combine_sum q r)) k) ∧
    (∀ (K : Type) [DecidableEq K] [AddCommSemigroup K] (p q : FM K) (k : K),
        weight_of (combine_sum p q) k = weight_of (combine_sum q p) k) ∧
    combine_sum (combine_sum (make_die 6) (make_die 6)) (make_die 6) =
      combine_sum (make_die 6) (combine_sum (make_die 6) (make_die 6)) ∧
    keysOf (combine_sum (combine_sum (make_die 6) (make_die 6)) (make_die 6)) =
      [3, 4, 5, 6, 7, 8, 9, 10, 11, 12, 13, 14, 15, 16, 17, 18] := by
  refine ⟨?_, ?_, ?_, ?_⟩
  · intro K instK instA p q r k
    rw [weight_of_eq_entrySum_indicator (nodup_keysOf_combine_sum _ _) k,
      weight_of_eq_entrySum_indicator (nodup_keysOf_combine_sum _ _) k]
    simp only [entrySum_combine_sum]
    refine entrySum_congr p fun a => ?_
    refine entrySum_congr q fun b => ?_
    refine entrySum_congr r fun c => ?_
    rw [add_assoc]
  · intro K instK instA p q k
    rw [weight_of_eq_entrySum_indicator (nodup_keysOf_combine_sum _ _) k,
      weight_of_eq_entrySum_indicator (nodup_keysOf_combine_sum _ _) k]
    simp only [entrySum_combine_sum]
    rw [entrySum_swap]
    refine entrySum_congr q fun b => ?_
    refine entrySum_congr p fun a => ?_
    rw [add_comm a b]
  · decide
  · decide

/-- C7: is_subset holds iff every stored entry of self with positive
count has at least that weight in other (vacuously true for an empty
self, and side-effect-free since the embedding is purely functional);
consequently can_spell holds iff every letter of the word occurs in the
tiles at least as often, as in the SYZYGY example. -/
theorem is_subset_spec :
    (∀ (K : Type) [DecidableEq K] (s o : FM K), (∀ e ∈ o, (0 : ℚ) ≤ e.2) →
        (is_subset s o = true ↔ ∀ e ∈ s, 0 < e.2 → e.2 ≤ weight_of o e.1)) ∧
    (∀ (K : Type) [DecidableEq K] (o : FM K), is_subset [] o = true) ∧
    (∀ (w t : List Char),
        can_spell w t = true ↔ ∀ ch, w.count ch ≤ t.count ch) ∧
    can_spell "SYZYGY".toList "AGSYYYZ".toList = true := by
  refine ⟨?_, ?_, ?_, ?_⟩
  · intro K instK s o ho
    exact is_subset_iff s o ho
  · intro K instK o
    rfl
  · intro w t
    have hnn : ∀ e ∈ fromSeq t, (0 : ℚ) ≤ e.2 := by
      intro e he
      rw [mem_fromSeq_eq_count he]
      exact_mod_cast Nat.zero_le _
    rw [show can_spell w t = is_subset (fromSeq w) (fromSeq t) from rfl,
      is_subset_iff _ _ hnn]
    constructor
    · intro hs ch
      by_cases hch : ch ∈ w
      · rcases exists_mem_of_mem_keysOf ((mem_keysOf_fromSeq w ch).mpr hch) with ⟨v, hv⟩
        have hveq : v = (w.count ch : ℚ) := by
          simpa using mem_fromSeq_eq_count hv
        have hpos : (0 : ℚ) < v := by
          rw [hveq]
          exact_mod_cast List.count_pos_iff.mpr hch
        have hle := hs (ch, v) hv hpos
        have hle2 : v ≤ (t.count ch : ℚ) := by
          simpa [weight_of_fromSeq] using hle
        rw [hveq] at hle2
        exact_mod_cast hle2
      · have hz : w.count ch = 0 := List.count_eq_zero.mpr hch
        simp [hz]
    · intro hc e he _
      rw [weight_of_fromSeq, mem_fromSeq_eq_count he]
      exact_mod_cast hc e.1
  · decide

/-- C7 witness: the subset characterization applied at a concrete pair
of multisets with non-negative weights. -/
theorem is_subset_spec_w :
    is_subset [((0 : ℕ), (2 : ℚ))] [((0 : ℕ), (3 : ℚ))] = true ↔
      ∀ e ∈ [((0 : ℕ), (2 : ℚ))], 0 < e.2 →
        e.2 ≤ weight_of [((0 : ℕ), (3 : ℚ))] e.1 :=
  is_subset_spec.1 ℕ [((0 : ℕ), (2 : ℚ))] [((0 : ℕ), (3 : ℚ))] (by decide)

/-- C8 counterexample: Counter equality is inherited dict equality,
which distinguishes a stored zero-weight entry from an absent key: the
map storing only 0 at key 0 agrees with the empty map on every weight,
yet the two do not compare equal. -/
theorem freq_eq_cex :
    ¬ (∀ (c1 c2 : FM ℕ),
        dictEqB c1 c2 = true ↔ ∀ v, weight_of c1 v = weight_of c2 v) := by
  intro hcl
  have hw : ∀ v, weight_of [((0 : ℕ), (0 : ℚ))] v = weight_of ([] : FM ℕ) v := by
    intro v
    by_cases hv : (0 : ℕ) = v <;> simp [weight_of, lookupD, hv]
  have hfalse := (hcl [((0 : ℕ), (0 : ℚ))] []).mpr hw
  exact absurd hfalse (by decide)

/-- C8 amended: Counter equality is value-based on the stored entries
(same stored keys with the same weights) but distinguishes a stored
zero-weight entry from an absent key; counters induced from value
sequences store only positive counts, so is_anagram holds iff every
value occurs equally often in both sequences, as in the examples. -/
theorem freq_eq_amended :
    (∀ (c1 c2 : FM ℕ), (keysOf c1).Nodup → (keysOf c2).Nodup →
        (dictEqB c1 c2 = true ↔
          ((∀ k, k ∈ keysOf c1 ↔ k ∈ keysOf c2) ∧
           ∀ k, weight_of c1 k = weight_of c2 k))) ∧
    dictEqB [((0 : ℕ), (0 : ℚ))] [] = false ∧
    (∀ v, weight_of [((0 : ℕ), (0 : ℚ))] v = weight_of ([] : FM ℕ) v) ∧
    (∀ (a b : List Char), is_anagram a b = true ↔ ∀ ch, a.count ch = b.count ch) ∧
    is_anagram "tachymetric".toList "mccarthyite".toList = true ∧
    is_anagram "banana".toList "peach".toList = false := by
  refine ⟨?_, by decide, ?_, ?_, by decide, by decide⟩
  · intro c1 c2 h1 h2
    exact dictEqB_iff c1 c2 h1 h2
  · intro v
    by_cases hv : (0 : ℕ) = v <;> simp [weight_of, lookupD, hv]
  · intro a b
    exact is_anagram_iff_counts a b

/-- C8 witness: the stored-entry equality characterization applied to a
concrete counter compared with itself. -/
theorem freq_eq_amended_w :
    dictEqB [((0 : ℕ), (1 : ℚ))] [((0 : ℕ), (1 : ℚ))] = true ↔
      ((∀ k, k ∈ keysOf [((0 : ℕ), (1 : ℚ))] ↔ k ∈ keysOf [((0 : ℕ), (1 : ℚ))]) ∧
       ∀ k, weight_of [((0 : ℕ), (1 : ℚ))] k = weight_of [((0 : ℕ), (1 : ℚ))] k) :=
  freq_eq_amended.1 _ _ (by decide) (by decide)

/-- C9: Pmf equality is object identity (self is other) and Pmf hashing
is id(self), so two distinct instances are never equal and hash to
distinct values even when their key/weight contents coincide. -/
theorem pmf_identity_eq :
    ∀ (a b : PmfObj ℕ),
      (pmfEqB a b = true ↔ a.addr = b.addr) ∧
      (a.contents = b.contents → a.addr ≠ b.addr →
        pmfEqB a b = false ∧ pmfHash a ≠ pmfHash b) := by
  intro a b
  refine ⟨?_, fun _ hne => ⟨?_, hne⟩⟩
  · simp [pmfEqB]
  · simp [pmfEqB]
    exact hne

/-- C9 witness: two concrete Pmf objects with identical contents but
distinct identities compare unequal and hash apart. -/
theorem pmf_identity_eq_w :
    pmfEqB (⟨0, [((1 : ℕ), (1 : ℚ) / 2)]⟩ : PmfObj ℕ) ⟨1, [((1 : ℕ), (1 : ℚ) / 2)]⟩ = false ∧
    pmfHash (⟨0, [((1 : ℕ), (1 : ℚ) / 2)]⟩ : PmfObj ℕ) ≠
      pmfHash (⟨1, [((1 : ℕ), (1 : ℚ) / 2)]⟩ : PmfObj ℕ) :=
  (pmf_identity_eq _ _).2 rfl (by decide)

/-- C10: run against an explicit heap, combine_sum writes only to the
freshly allocated result object: both operands are unchanged after the
call, and the result object holds exactly the pure convolution of the
operand contents. -/
theorem combine_sum_frame {K : Type} [DecidableEq K] [Add K] (σ : Store K)
    (pa qa ra : ℕ) (hp : pa ≠ ra) (hq : qa ≠ ra) :
    heapGet (combine_sum_heap σ pa qa ra) pa = heapGet σ pa ∧
    heapGet (combine_sum_heap σ pa qa ra) qa = heapGet σ qa ∧
    heapGet (combine_sum_heap σ pa qa ra) ra =
      combine_sum (heapGet σ pa) (heapGet σ qa) := by
  have hpa : heapGet (heapSet σ ra []) pa = heapGet σ pa := by
    rw [heapGet_heapSet, if_neg (fun hc => hp hc.symm)]
  have hqa : heapGet (heapSet σ ra []) qa = heapGet σ qa := by
    rw [heapGet_heapSet, if_neg (fun hc => hq hc.symm)]
  have hra : heapGet (heapSet σ ra []) ra = [] := by
    rw [heapGet_heapSet, if_pos rfl]
  unfold combine_sum_heap
  have houter := heap_outer_fold (heapGet (heapSet σ ra []) pa) qa ra hq (heapSet σ ra [])
  refine ⟨?_, ?_, ?_⟩
  · rw [houter.1 pa hp, hpa]
  · rw [houter.1 qa hq, hqa]
  · rw [houter.2]
    simp only [hpa, hqa, hra]
    rfl

/-- C10 witness: the frame property at a concrete two-object heap with
a fresh result address. -/
theorem combine_sum_frame_w :
    heapGet (combine_sum_heap storeEx 0 1 2) 0 = heapGet storeEx 0 ∧
    heapGet (combine_sum_heap storeEx 0 1 2) 1 = heapGet storeEx 1 ∧
    heapGet (combine_sum_heap storeEx 0 1 2) 2 =
      combine_sum (heapGet storeEx 0) (heapGet storeEx 1) :=
  combine_sum_frame storeEx 0 1 2 (by decide) (by decide)

end CounterPmf
